import Mathlib

/-!
Verification development for the `fast_pack_creator` offline batch
rendering engine (Source/Audio/MidiPlayer.cpp,
Source/Rendering/ParallelBatchRenderer.cpp).

Real numbers of the C++ code (`double`, `float`) are embedded as exact
rationals `ℚ`; machine integers (`int`, `int64`) as `Int`.  C-style casts
from floating point to integer truncate toward zero and are embedded by
`truncQ`.  Audio buffers are embedded by their per-sample magnitude
(maximum absolute value across channels), which is the only view of the
buffer the trimming code reads.
-/

namespace FPC

/-- JUCE `jlimit(lo, hi, v)` on machine integers: clamp `v` into `[lo, hi]`. -/
def jlimit (lo hi v : Int) : Int :=
  if v < lo then lo else if hi < v then hi else v

/-- JUCE `jlimit(lo, hi, v)` on floating-point values (embedded as `ℚ`). -/
def jlimitQ (lo hi v : ℚ) : ℚ :=
  if v < lo then lo else if hi < v then hi else v

/-- C-style cast of a floating-point value to an integer type:
truncation toward zero. -/
def truncQ (q : ℚ) : Int :=
  if 0 ≤ q then ⌊q⌋ else ⌈q⌉

/-! ## MIDI data model

`MsgKind` is the content of a JUCE `MidiMessage` as far as the engine
inspects it: note-ons and note-offs carry channel, note number and a
floating-point velocity in `[0,1]` (`getFloatVelocity`); every other
message kind is opaque to the engine and is tagged `meta`. -/

/-- Content of a JUCE `MidiMessage`, as inspected by the engine. -/
inductive MsgKind where
  | noteOn (channel note : Int) (velocity : ℚ)
  | noteOff (channel note : Int) (velocity : ℚ)
  | meta (tag : Nat)
deriving DecidableEq

/-- A timestamped MIDI message (JUCE `MidiMessage` plus its sequence
timestamp, in seconds once the file has been converted). -/
structure MidiMessage where
  kind : MsgKind
  timeStamp : ℚ
deriving DecidableEq

/-- JUCE `MidiMessage::noteOff(channel, note)` constructs a note-off with
the constructor-default velocity `0` (no explicit release velocity). -/
def defaultNoteOffVelocity : ℚ := 0

/-! ## MidiPlayer::applyTransformations (MidiPlayer.cpp lines 33-60)

For each event of the input sequence: note-on/off events get note number
`jlimit(0, 127, note + pitchOffset)`; a note-on is rebuilt by
`MidiMessage::noteOn(channel, newNote, jlimit(0.0f, 1.0f, vel * mult))`;
a note-off is rebuilt by `MidiMessage::noteOff(channel, newNote)`
(discarding the original release velocity); the original timestamp is
restored by `setTimeStamp`; any other message is passed through.
`updateMatchedPairs` only links note-on/note-off pairs and is the
identity on the event list. -/

/-- The per-event body of `MidiPlayer::applyTransformations`. -/
def transformMessage (pitchOffset : Int) (velocityMultiplier : ℚ)
    (m : MidiMessage) : MidiMessage :=
  match m.kind with
  | .noteOn ch n v =>
      { kind := MsgKind.noteOn ch (jlimit 0 127 (n + pitchOffset))
          (jlimitQ 0 1 (v * velocityMultiplier)),
        timeStamp := m.timeStamp }
  | .noteOff ch n _ =>
      { kind := MsgKind.noteOff ch (jlimit 0 127 (n + pitchOffset))
          defaultNoteOffVelocity,
        timeStamp := m.timeStamp }
  | .meta _ => m

/-- `MidiPlayer::applyTransformations` (MidiPlayer.cpp lines 33-60). -/
def applyTransformations (seq : List MidiMessage) (pitchOffset : Int)
    (velocityMultiplier : ℚ) : List MidiMessage :=
  seq.map (transformMessage pitchOffset velocityMultiplier)

/-! ## Raw MIDI files (before tick-to-seconds conversion)

`MidiFileRaw` is a parsed JUCE `MidiFile`: whether the stream opened and
`readFrom` succeeded, the header's time format (positive = ticks per
quarter note, otherwise SMPTE), the tempo information carried by the
file's own tempo meta events (seconds per quarter note, default 0.5),
and the per-track event lists with tick timestamps. -/

/-- One event of a raw MIDI track; `tick` is the `double` timestamp as
stored by JUCE before tick-to-seconds conversion. -/
structure RawEvent where
  kind : MsgKind
  tick : ℚ
deriving DecidableEq

/-- A parsed JUCE `MidiFile`. -/
structure MidiFileRaw where
  readable : Bool
  timeFormat : Int
  tempoSecondsPerQuarter : ℚ
  tracks : List (List RawEvent)
deriving DecidableEq

/-- Tick-to-seconds conversion performed by the JUCE library call
`MidiFile::convertTimestampTicksToSeconds`: for a ticks-per-quarter-note
file, `tick / PPQ * secondsPerQuarter`, where the seconds-per-quarter
value comes from the file's own tempo meta events (default 0.5 = 120
bpm); for SMPTE formats the scale is likewise determined by the header
alone.  It depends only on the file. -/
def tickToSeconds (f : MidiFileRaw) (tick : ℚ) : ℚ :=
  if 0 < f.timeFormat then tick / (f.timeFormat : ℚ) * f.tempoSecondsPerQuarter
  else tick * f.tempoSecondsPerQuarter

/-- Comparison used to keep a `MidiMessageSequence` ordered by timestamp. -/
def timeLe (a b : MidiMessage) : Bool :=
  decide (a.timeStamp ≤ b.timeStamp)

/-- `MidiPlayer::loadMidiFile` (MidiPlayer.cpp lines 15-31): if the
stream opens and the file parses, convert tick timestamps to seconds
(a function of the file only), then `addSequence` every track into one
`MidiMessageSequence` at time offset 0 (the sequence is kept sorted by
timestamp); `updateMatchedPairs` is the identity on the event list.  The
`bpm` parameter is accepted but never used by the function body. -/
def loadMidiFile (f : MidiFileRaw) (bpm : ℚ) : List MidiMessage :=
  if f.readable then
    (f.tracks.foldl (fun acc tr =>
        acc ++ tr.map (fun e =>
          { kind := e.kind, timeStamp := tickToSeconds f e.tick })) []).mergeSort timeLe
  else []

/-! ## MidiPlayer::getMidiFileDuration (MidiPlayer.cpp lines 66-138) -/

/-- One step of the last-note-on scan of `getMidiFileDuration`:
`eventTick = static_cast<int>(timestamp)`, kept only when the event is a
note-on and the tick is strictly greater than the best so far. -/
def stepTick (best : Int) (e : RawEvent) : Int :=
  match e.kind with
  | .noteOn _ _ _ => if best < truncQ e.tick then truncQ e.tick else best
  | _ => best

/-- The last-note-on scan of `getMidiFileDuration` over one track. -/
def lastNoteOnTickTrack (acc : Int) (tr : List RawEvent) : Int :=
  tr.foldl stepTick acc

/-- The tick of the last note-on event of the file (note-offs and all
other events ignored), starting from 0 (MidiPlayer.cpp lines 86-100). -/
def lastNoteOnTick (f : MidiFileRaw) : Int :=
  f.tracks.foldl lastNoteOnTickTrack 0

/-- `MidiPlayer::getMidiFileDuration` (MidiPlayer.cpp lines 66-138):
0 when the file cannot be read or the header's time format is not a
positive ticks-per-quarter-note value; otherwise convert the last
note-on tick to beats, complete its (0-indexed) containing bar,
enforce a minimum of one bar, and convert beats to seconds at
`60 / bpm` seconds per beat. -/
def getMidiFileDuration (f : MidiFileRaw) (bpm : ℚ) : ℚ :=
  if ¬ f.readable then 0
  else if f.timeFormat ≤ 0 then 0
  else
    (if ((truncQ ((lastNoteOnTick f : ℚ) / (f.timeFormat : ℚ) / 4) : ℚ) + 1) * 4 < 4
      then 4
      else ((truncQ ((lastNoteOnTick f : ℚ) / (f.timeFormat : ℚ) / 4) : ℚ) + 1) * 4)
    * (60 / bpm)

/-- A concrete 4/4 MIDI file (PPQ = 96) whose last note-on lands at tick
1248 = beat 13, i.e. inside bar 4 (1-indexed); a later note-off at tick
1300 must be ignored by the last-note-on scan. -/
def exampleBar4File : MidiFileRaw :=
  { readable := true
    timeFormat := 96
    tempoSecondsPerQuarter := 1/2
    tracks := [[⟨MsgKind.noteOn 1 60 1, 0⟩,
                ⟨MsgKind.noteOn 1 62 1, 1248⟩,
                ⟨MsgKind.noteOff 1 62 0, 1300⟩]] }

/-! ## renderSingleJob: gain staging (ParallelBatchRenderer.cpp lines 345-358)

The JUCE library function `Decibels::decibelsToGain` is kept as a
parameter `dbToLin`; its one relevant property (it returns a strictly
positive gain for any dB value above its -100 dB minus-infinity cutoff,
in particular above -96) is a hypothesis of the theorems.  The buffer is
a list of sample values. -/

/-- `rowGainLinear`: `job.volumeDb > -96 ? decibelsToGain(volumeDb) : 0`. -/
def rowGainLinear (dbToLin : ℚ → ℚ) (volumeDb : ℚ) : ℚ :=
  if -96 < volumeDb then dbToLin volumeDb else 0

/-- `masterGainLinear`: `settings.masterGainDb > -96 ? decibelsToGain(masterGainDb) : 0`. -/
def masterGainLinear (dbToLin : ℚ → ℚ) (masterGainDb : ℚ) : ℚ :=
  if -96 < masterGainDb then dbToLin masterGainDb else 0

/-- The gain application: `combinedGain > 0 ? applyGain(combinedGain) : clear()`. -/
def applyGainStage (dbToLin : ℚ → ℚ) (volumeDb masterGainDb : ℚ)
    (buffer : List ℚ) : List ℚ :=
  if 0 < rowGainLinear dbToLin volumeDb * masterGainLinear dbToLin masterGainDb
  then buffer.map (fun s =>
    s * (rowGainLinear dbToLin volumeDb * masterGainLinear dbToLin masterGainDb))
  else buffer.map (fun _ => 0)

/-! ## renderSingleJob: block-wise MIDI scheduling
(ParallelBatchRenderer.cpp lines 283-341)

Only the event timestamps matter here, so pending events are a list of
times (seconds, `ℚ`).  `blockEmit` is the inner `while` over
`midiEventIndex`: an event before the block start is skipped (dropped,
`midiEventIndex++; continue`); an event before the block end is added to
the block's MIDI buffer at
`jlimit(0, samplesToProcess-1, (int)((eventTime-blockStartTime)*sampleRate))`;
the first event at or past the block end breaks the loop. -/

/-- One block of the MIDI-scheduling inner loop; returns
`(dropped, emitted (time, sampleOffset), remaining)`. -/
def blockEmit (sampleRate startT endT : ℚ) (blockSamples : Int) :
    List ℚ → List ℚ × List (ℚ × Int) × List ℚ
  | [] => ([], [], [])
  | t :: rest =>
    if t < startT then
      let r := blockEmit sampleRate startT endT blockSamples rest
      (t :: r.1, r.2.1, r.2.2)
    else if t < endT then
      let r := blockEmit sampleRate startT endT blockSamples rest
      (r.1,
       (t, jlimit 0 (blockSamples - 1) (truncQ ((t - startT) * sampleRate))) :: r.2.1,
       r.2.2)
    else ([], [], t :: rest)

/-- The block decomposition of the render loop: starting at `pos`,
blocks of `min blockSize (totalSamples - pos)` samples while
`pos < totalSamples` (`blockSize > 0` so the loop advances). -/
def renderBlocksAux (blockSize totalSamples pos : Nat) : List (Nat × Nat) :=
  if h : pos < totalSamples ∧ 0 < blockSize then
    (pos, min blockSize (totalSamples - pos)) ::
      renderBlocksAux blockSize totalSamples (pos + min blockSize (totalSamples - pos))
  else []
termination_by totalSamples - pos
decreasing_by
  have h1 : 0 < min blockSize (totalSamples - pos) := by
    rcases h with ⟨h1, h2⟩
    exact lt_min h2 (by omega)
  omega

/-- The `(samplePos, samplesToProcess)` blocks of the render loop. -/
def renderBlocks (blockSize totalSamples : Nat) : List (Nat × Nat) :=
  renderBlocksAux blockSize totalSamples 0

/-- Drive `blockEmit` over the block list, threading the pending event
list exactly as `midiEventIndex` threads through the outer `while`;
emitted events are tagged with their block's start sample. -/
def runBlocks (sampleRate : ℚ) :
    List (Nat × Nat) → List ℚ → List ℚ × List (Nat × ℚ × Int) × List ℚ
  | [], events => ([], [], events)
  | b :: bs, events =>
    let r := blockEmit sampleRate ((b.1 : ℚ) / sampleRate)
        (((b.1 + b.2 : Nat) : ℚ) / sampleRate) (b.2 : Int) events
    let s := runBlocks sampleRate bs r.2.2
    (r.1 ++ s.1, r.2.1.map (fun e => (b.1, e.1, e.2)) ++ s.2.1, s.2.2)

/-- The full MIDI scheduling of one render
(`dropped, emitted, still pending at the end`). -/
def scheduleEvents (sampleRate : ℚ) (totalSamples blockSize : Nat)
    (events : List ℚ) : List ℚ × List (Nat × ℚ × Int) × List ℚ :=
  runBlocks sampleRate (renderBlocks blockSize totalSamples) events

/-- The offset the spec claims for an in-block event: `round` (nearest
integer) instead of the code's truncation. -/
def claimedOffset (sampleRate startT : ℚ) (blockSamples : Int) (t : ℚ) : Int :=
  jlimit 0 (blockSamples - 1) (round ((t - startT) * sampleRate))

/-! ## renderSingleJob: render length and loop cut
(ParallelBatchRenderer.cpp lines 250-279 and 360-417) -/

/-- `renderDuration`: seamless mode renders `2*loopDuration + 5` seconds,
otherwise `sequenceDuration + 10` seconds. -/
def renderDurationOf (doSeamlessLoop : Bool) (loopDur midiDur : ℚ) : ℚ :=
  if doSeamlessLoop then loopDur * 2 + 5 else midiDur + 10

/-- `totalSamples = (int64)(renderDuration * sampleRate)`. -/
def renderTotalSamples (doSeamlessLoop : Bool) (loopDur midiDur sampleRate : ℚ) : Int :=
  truncQ (renderDurationOf doSeamlessLoop loopDur midiDur * sampleRate)

/-- The seamless-loop MIDI splice (lines 252-267): every transformed
event is duplicated with its timestamp shifted forward by the
bar-rounded loop duration, then the sequence is re-sorted by time. -/
def seamlessSpliceEvents (events : List MidiMessage) (loopDur : ℚ) :
    List MidiMessage :=
  (events ++ events.map (fun m =>
    ({ kind := m.kind, timeStamp := m.timeStamp + loopDur } : MidiMessage))).mergeSort timeLe

/-- Loop-mode write range (lines 360-379 and 417):
`finalSamples = (int64)(loopDur * sampleRate)`, write offset
`(int64)(loopDur * sampleRate)` when seamless else 0, then
`finalSamples = jmin(finalSamples, totalSamples)`.
Returns `(startSampleOffset, finalSamples)`. -/
def loopWriteRange (doSeamlessLoop : Bool) (loopDur sampleRate : ℚ)
    (totalSamples : Int) : Int × Int :=
  (if doSeamlessLoop then truncQ (loopDur * sampleRate) else 0,
   min (truncQ (loopDur * sampleRate)) totalSamples)

/-! ## renderSingleJob: non-loop silence trim
(ParallelBatchRenderer.cpp lines 380-417)

The rendered buffer enters this phase only through
`getMagnitude(channel, pos, len)` (peak absolute value over a sample
range, maximized over channels), so it is embedded as its per-sample
magnitude `mag : Nat → ℚ`. -/

/-- Peak magnitude over `[pos, pos+len)` (JUCE `getMagnitude`, starting
from the code's `peak = 0.0f` accumulator). -/
def peakRange (mag : Nat → ℚ) (pos len : Nat) : ℚ :=
  ((List.range len).map (fun i => mag (pos + i))).foldl max 0

/-- The backward scan (lines 384-401): positions
`totalSamples - blockSize, totalSamples - 2*blockSize, …` while
nonnegative; the first window whose peak exceeds the threshold sets
`silenceStartSample = pos + samplesToCheck`; if none does,
`silenceStartSample` keeps its initial value `totalSamples`. -/
def scanBackSilence (mag : Nat → ℚ) (total bs : Nat) (thr : ℚ) : Nat :=
  match (List.range (total / bs)).find?
      (fun k => decide (thr < peakRange mag (total - (k + 1) * bs) bs)) with
  | some k => total - (k + 1) * bs + bs
  | none => total

/-- Non-loop final sample count (lines 403-417): convert
`silenceStartSample` to seconds, snap up to the next whole bar at
`barDuration = 60/bpm * 4`, floor of one bar, convert back to samples
and clamp to the rendered buffer size. -/
def nonLoopFinalSamples (mag : Nat → ℚ) (total bs : Nat)
    (thr sampleRate bpm : ℚ) : Int :=
  min
    (truncQ
      ((if (⌈((scanBackSilence mag total bs thr : ℚ) / sampleRate) / (60 / bpm * 4)⌉ : ℚ)
            * (60 / bpm * 4) < 60 / bpm * 4
        then 60 / bpm * 4
        else (⌈((scanBackSilence mag total bs thr : ℚ) / sampleRate) / (60 / bpm * 4)⌉ : ℚ)
            * (60 / bpm * 4))
        * sampleRate))
    (total : Int)

/-! ## Progress poll and batch counters
(ParallelBatchRenderer.cpp lines 122-145 and 183-191) -/

/-- The counters and last-error cell read by the progress poll. -/
structure PollState where
  completed : Nat
  failed : Nat
  totalJobs : Nat
  lastError : String
deriving DecidableEq

/-- `getProgress` (lines 122-127): `1.0` when `totalJobs == 0`, else
`completed / totalJobs`. -/
def getProgress (s : PollState) : ℚ :=
  if s.totalJobs = 0 then 1 else (s.completed : ℚ) / (s.totalJobs : ℚ)

/-- What one timer tick does after reporting progress. -/
inductive PollOutcome where
  | keepPolling
  | errorCallback (msg : String)
  | completeCallback
deriving DecidableEq

/-- `timerCallback` (lines 130-145), with both callbacks installed:
report `getProgress`; once `completed + failed >= totalJobs`, stop the
timer and fire the error callback with
`"Some renders failed: " ++ lastError` when any job failed, else the
completion callback.  Returns (reported progress, timer stopped?,
outcome). -/
def timerCallback (s : PollState) : ℚ × Bool × PollOutcome :=
  (getProgress s,
   decide (s.totalJobs ≤ s.completed + s.failed),
   if s.totalJobs ≤ s.completed + s.failed then
     if 0 < s.failed then
       PollOutcome.errorCallback ("Some renders failed: " ++ s.lastError)
     else PollOutcome.completeCallback
   else PollOutcome.keepPolling)

/-- The counter/last-error update of `onJobCompleted` (lines 183-191):
on success increment `completed`; on failure increment `failed` and
overwrite `lastError` when the incoming message is non-empty. -/
def recordCompletion (s : PollState) (success : Bool) (error : String) :
    PollState :=
  if success then { s with completed := s.completed + 1 }
  else
    { s with failed := s.failed + 1,
             lastError := if error.isEmpty then s.lastError else error }

/-- The message the spec claims for the error callback (lowercase). -/
def claimedErrorMessage (lastError : String) : String :=
  "some renders failed: " ++ lastError

/-- Blocks are contiguous from a given start sample: each block begins
where announced and the next list continues at its end. -/
def chainedFrom : Nat → List (Nat × Nat) → Prop
  | _, [] => True
  | s, b :: bs => b.1 = s ∧ chainedFrom (b.1 + b.2) bs

/-- A concrete rendered buffer for the silence-trim example: magnitude 1
up to sample 52, silence from sample 53 on (at sample rate 10 the
content ends at t = 5.3 s). -/
def exampleMag (i : Nat) : ℚ :=
  if i < 53 then 1 else 0

/-! ## Row queues and scheduler
(ParallelBatchRenderer.cpp lines 61-119, 147-208)

The scheduler state: one `RowQ` per row (FIFO of queued job ids, the
row's `isProcessing` flag), plus the `rendering`/`cancelled` flags and
counters.  Jobs are identified by the order of enqueueing (`nextId`).
Ghost fields record the history needed to state the claim: `inFlight`
(ids submitted to the pool and not yet completed), `started` (ids in
start order), `finished` (ids in completion order), `enqueued` (all ids
ever queued for the row, in enqueue order).  The thread pool's execution
of a job is the `finish` transition, which performs the completion
lambda's `onJobCompleted`. -/

/-- One per-row queue (`RowQueue` plus ghost history). -/
structure RowQ where
  rowIndex : Nat
  pending : List Nat
  processing : Bool
  inFlight : List Nat
  started : List Nat
  finished : List Nat
  enqueued : List Nat
deriving DecidableEq

/-- The scheduler state of `ParallelBatchRenderer`. -/
structure SchedState where
  rows : List RowQ
  rendering : Bool
  cancelled : Bool
  nextId : Nat
  completedCount : Nat
  failedCount : Nat
  totalJobs : Nat
deriving DecidableEq

/-- The freshly constructed renderer: no queues, not rendering. -/
def initState : SchedState :=
  { rows := [], rendering := false, cancelled := false, nextId := 0,
    completedCount := 0, failedCount := 0, totalJobs := 0 }

/-- Update the first row with the given index (the `for (auto *q :
rowQueues) if (q->rowIndex == rowIndex)` search); no match, no change. -/
def updateRow (i : Nat) (f : RowQ → RowQ) : List RowQ → List RowQ
  | [] => []
  | q :: qs => if q.rowIndex = i then f q :: qs else q :: updateRow i f qs

/-- `addJob` (lines 61-81): find or create the row's queue, push the job
at the back, increment the total count. -/
def addJob (s : SchedState) (row : Nat) : SchedState :=
  if _h : ∃ q ∈ s.rows, q.rowIndex = row then
    { s with
      rows := updateRow row (fun q =>
        { q with pending := q.pending ++ [s.nextId],
                 enqueued := q.enqueued ++ [s.nextId] }) s.rows,
      nextId := s.nextId + 1, totalJobs := s.totalJobs + 1 }
  else
    { s with
      rows := s.rows ++ [⟨row, [s.nextId], false, [], [], [], [s.nextId]⟩],
      nextId := s.nextId + 1, totalJobs := s.totalJobs + 1 }

/-- The body of `processNextJobForRow` once the row is found (lines
162-180): an empty queue clears the processing flag; otherwise, unless
the flag was already set (`isProcessing.exchange(true)`), pop the front
job and submit it to the pool (it becomes in-flight / started). -/
def dispatchRow (q : RowQ) : RowQ :=
  match q.pending with
  | [] => { q with processing := false }
  | j :: rest =>
      if q.processing then q
      else { q with
        pending := rest
        processing := true
        inFlight := q.inFlight ++ [j]
        started := q.started ++ [j] }

/-- `processNextJobForRow` (lines 147-181): no-op when cancelled or when
the row has no queue. -/
def processNextJobForRow (s : SchedState) (row : Nat) : SchedState :=
  if s.cancelled then s
  else { s with rows := updateRow row dispatchRow s.rows }

/-- `startRendering` (lines 83-104): no-op if already rendering or no
queues; otherwise mark rendering, reset the cancelled flag and counters,
and dispatch the first job of every row. -/
def startRendering (s : SchedState) : SchedState :=
  if s.rendering then s
  else if s.rows.isEmpty then s
  else
    (({ s with
        rendering := true
        cancelled := false
        completedCount := 0
        failedCount := 0 } : SchedState).rows.map
      (fun q => q.rowIndex)).foldl processNextJobForRow
      { s with
        rendering := true
        cancelled := false
        completedCount := 0
        failedCount := 0 }

/-- `onJobCompleted` (lines 183-208), fused with the worker finishing
job `j`: bump the counters, clear the row's processing flag (the job
leaves the in-flight set and enters the finished history), then, if not
cancelled, advance that row. -/
def onJobCompleted (s : SchedState) (row j : Nat) (success : Bool) :
    SchedState :=
  if ({ s with
      completedCount := if success then s.completedCount + 1 else s.completedCount,
      failedCount := if success then s.failedCount else s.failedCount + 1,
      rows := updateRow row (fun q =>
        { q with processing := false,
                 inFlight := q.inFlight.erase j,
                 finished := q.finished ++ [j] }) s.rows } : SchedState).cancelled
  then { s with
      completedCount := if success then s.completedCount + 1 else s.completedCount,
      failedCount := if success then s.failedCount else s.failedCount + 1,
      rows := updateRow row (fun q =>
        { q with processing := false,
                 inFlight := q.inFlight.erase j,
                 finished := q.finished ++ [j] }) s.rows }
  else processNextJobForRow
    { s with
      completedCount := if success then s.completedCount + 1 else s.completedCount,
      failedCount := if success then s.failedCount else s.failedCount + 1,
      rows := updateRow row (fun q =>
        { q with processing := false,
                 inFlight := q.inFlight.erase j,
                 finished := q.finished ++ [j] }) s.rows } row

/-- `cancelRendering` (lines 106-119): set the cancelled flag, stop
rendering, clear every pending queue and every processing flag
(in-flight jobs keep running until they observe the flag). -/
def cancelRendering (s : SchedState) : SchedState :=
  { s with
    cancelled := true
    rendering := false
    rows := s.rows.map (fun q =>
      { q with pending := ([] : List Nat), processing := false }) }

/-- The scheduler's step relation: the caller's operations plus the
worker pool finishing an in-flight job (which runs the completion
continuation `onJobCompleted`). -/
inductive Step : SchedState → SchedState → Prop where
  | add (s : SchedState) (row : Nat) : Step s (addJob s row)
  | start (s : SchedState) : Step s (startRendering s)
  | finish (s : SchedState) (row j : Nat) (success : Bool) (q : RowQ)
      (hq : q ∈ s.rows) (hrow : q.rowIndex = row) (hj : j ∈ q.inFlight) :
      Step s (onJobCompleted s row j success)
  | cancel (s : SchedState) : Step s (cancelRendering s)

/-- The step relation restricted to executions that never call
`startRendering` while a job is still in flight (the restriction the
amended claim needs). -/
inductive SafeStep : SchedState → SchedState → Prop where
  | add (s : SchedState) (row : Nat) : SafeStep s (addJob s row)
  | start (s : SchedState) (hsafe : ∀ q ∈ s.rows, q.inFlight = []) :
      SafeStep s (startRendering s)
  | finish (s : SchedState) (row j : Nat) (success : Bool) (q : RowQ)
      (hq : q ∈ s.rows) (hrow : q.rowIndex = row) (hj : j ∈ q.inFlight) :
      SafeStep s (onJobCompleted s row j success)
  | cancel (s : SchedState) : SafeStep s (cancelRendering s)

/-- States reachable from the freshly constructed renderer. -/
def Reachable (s : SchedState) : Prop :=
  Relation.ReflTransGen Step initState s

/-- States reachable without restarting while jobs are in flight. -/
def SafeReachable (s : SchedState) : Prop :=
  Relation.ReflTransGen SafeStep initState s

/-- The per-row invariant of the claim: at most one job in flight;
every started job is finished except the in-flight one (so job N's
completion precedes job N+1's start); jobs start in enqueue order. -/
def RowInv (q : RowQ) : Prop :=
  q.inFlight.length ≤ 1
  ∧ q.started = q.finished ++ q.inFlight
  ∧ (q.started ++ q.pending).Sublist q.enqueued

/-- The inductive invariant: distinct row indexes, each row's `RowInv`,
and (except after a cancel) a cleared processing flag means no job in
flight. -/
def FullInv (s : SchedState) : Prop :=
  s.rows.Pairwise (fun a b => a.rowIndex ≠ b.rowIndex)
  ∧ ∀ q ∈ s.rows, RowInv q
      ∧ (s.cancelled = false → q.processing = false → q.inFlight = [])

/-- A reachable state with two jobs of one row in flight: enqueue two
jobs on row 0, start (job 0 dispatched), cancel while job 0 runs,
enqueue job 2, restart — job 2 is dispatched while job 0 is still
in flight. -/
def badStateC7 : SchedState :=
  startRendering (addJob (cancelRendering (startRendering
    (addJob (addJob initState 0) 0))) 0)

/-- A benign reachable state for the witness: one job enqueued and
started on row 0. -/
def goodStateC7 : SchedState :=
  startRendering (addJob initState 0)

/-! ## Theorems -/

theorem stepTick_le (best : Int) (e : RawEvent) : best ≤ stepTick best e := by
  rcases e with ⟨k, t⟩
  cases k with
  | noteOn ch n v =>
      unfold stepTick
      dsimp only
      split <;> omega
  | noteOff ch n v => exact le_refl _
  | meta tag => exact le_refl _

theorem foldl_stepTick_le (tr : List RawEvent) :
    ∀ acc : Int, acc ≤ tr.foldl stepTick acc := by
  induction tr with
  | nil => intro acc; exact le_refl _
  | cons e tr ih =>
      intro acc
      exact le_trans (stepTick_le acc e) (ih _)

theorem foldl_track_le (ts : List (List RawEvent)) :
    ∀ acc : Int, acc ≤ ts.foldl lastNoteOnTickTrack acc := by
  induction ts with
  | nil => intro acc; exact le_refl _
  | cons tr ts ih =>
      intro acc
      exact le_trans (foldl_stepTick_le tr acc) (ih _)

theorem lastNoteOnTick_nonneg (f : MidiFileRaw) : 0 ≤ lastNoteOnTick f :=
  foldl_track_le f.tracks 0

theorem truncQ_eq_floor (q : ℚ) (h : 0 ≤ q) : truncQ q = ⌊q⌋ := by
  unfold truncQ
  rw [if_pos h]

theorem jlimit_eq_clamp (lo hi v : Int) (h : lo ≤ hi) :
    jlimit lo hi v = max lo (min hi v) := by
  unfold jlimit
  rcases le_total v lo with h1 | h1 <;> rcases le_total v hi with h2 | h2 <;>
    simp [max_def, min_def] <;> split_ifs <;> omega

theorem jlimitQ_eq_clamp (lo hi v : ℚ) (h : lo ≤ hi) :
    jlimitQ lo hi v = max lo (min hi v) := by
  unfold jlimitQ
  simp only [max_def, min_def]
  split_ifs <;> linarith

theorem getMidiFileDuration_eq (f : MidiFileRaw) (bpm : ℚ)
    (hr : f.readable = true) (ht : 0 < f.timeFormat) :
    getMidiFileDuration f bpm
      = ((⌊(lastNoteOnTick f : ℚ) / (f.timeFormat : ℚ) / 4⌋ : ℚ) + 1) * 4
          * (60 / bpm) := by
  have hnum : (0:ℚ) ≤ (lastNoteOnTick f : ℚ) := by
    exact_mod_cast lastNoteOnTick_nonneg f
  have hden : (0:ℚ) < (f.timeFormat : ℚ) := by exact_mod_cast ht
  have hfloor : (0:ℚ) ≤ (⌊(lastNoteOnTick f : ℚ) / (f.timeFormat : ℚ) / 4⌋ : ℚ) := by
    have h0 : (0:ℤ) ≤ ⌊(lastNoteOnTick f : ℚ) / (f.timeFormat : ℚ) / 4⌋ :=
      Int.floor_nonneg.2 (by positivity)
    exact_mod_cast h0
  unfold getMidiFileDuration
  rw [if_neg (by simp [hr]), if_neg (by omega)]
  rw [truncQ_eq_floor _ (by positivity)]
  rw [if_neg (by linarith)]

theorem lastNoteOnTick_example : lastNoteOnTick exampleBar4File = 1248 := by
  norm_num [lastNoteOnTick, lastNoteOnTickTrack, stepTick, exampleBar4File,
    truncQ, List.foldl]

/-- Claim C2: for a readable MIDI file with positive PPQ header and
`bpm > 0`, `getMidiFileDuration` returns `(⌊beats/4⌋+1)*4` beats at
`60/bpm` seconds per beat, where `beats` is the last note-on tick over
the PPQ value, with a minimum of one full bar (4 beats); an unreadable
file or a non-positive/SMPTE time format yields 0; and the concrete
bar-4 example at bpm 120 yields 8.0 seconds. -/
theorem getMidiFileDuration_correct (f : MidiFileRaw) (bpm : ℚ) (hb : 0 < bpm) :
    (f.readable = true → 0 < f.timeFormat →
        getMidiFileDuration f bpm
            = ((⌊(lastNoteOnTick f : ℚ) / (f.timeFormat : ℚ) / 4⌋ : ℚ) + 1) * 4
                * (60 / bpm)
          ∧ 4 * (60 / bpm) ≤ getMidiFileDuration f bpm)
    ∧ (f.readable = false → getMidiFileDuration f bpm = 0)
    ∧ (f.timeFormat ≤ 0 → getMidiFileDuration f bpm = 0)
    ∧ getMidiFileDuration exampleBar4File 120 = 8 := by
  refine ⟨?_, ?_, ?_, ?_⟩
  · intro hr ht
    have hval := getMidiFileDuration_eq f bpm hr ht
    have hfloor : (0:ℚ) ≤ (⌊(lastNoteOnTick f : ℚ) / (f.timeFormat : ℚ) / 4⌋ : ℚ) := by
      have hnum : (0:ℚ) ≤ (lastNoteOnTick f : ℚ) := by
        exact_mod_cast lastNoteOnTick_nonneg f
      have hden : (0:ℚ) < (f.timeFormat : ℚ) := by exact_mod_cast ht
      have h0 : (0:ℤ) ≤ ⌊(lastNoteOnTick f : ℚ) / (f.timeFormat : ℚ) / 4⌋ :=
        Int.floor_nonneg.2 (by positivity)
      exact_mod_cast h0
    refine ⟨hval, ?_⟩
    rw [hval]
    have hsec : (0:ℚ) < 60 / bpm := by positivity
    nlinarith [hfloor, hsec]
  · intro hr
    unfold getMidiFileDuration
    rw [if_pos (by simp [hr])]
  · intro ht
    unfold getMidiFileDuration
    by_cases hr : f.readable
    · rw [if_neg (by simp [hr]), if_pos ht]
    · rw [if_pos (by simp [hr])]
  · rw [getMidiFileDuration_eq exampleBar4File 120 rfl
        (by norm_num [exampleBar4File]), lastNoteOnTick_example]
    norm_num [exampleBar4File]

/-- Witness for Claim C2 at the concrete bar-4 example file. -/
theorem getMidiFileDuration_correct_witness :
    getMidiFileDuration exampleBar4File 120 = 8 := by
  have h := (getMidiFileDuration_correct exampleBar4File 120 (by norm_num)).1
      rfl (by norm_num [exampleBar4File])
  rw [h.1, lastNoteOnTick_example]
  norm_num [exampleBar4File]

/-- Claim C5: `applyTransformations` maps every event pointwise; each
note-on/note-off gets note number `clamp(n + pitchOffset, 0, 127)`, each
note-on gets velocity `clamp(vel * velocityMultiplier, 0, 1)`, every
timestamp is preserved, and every other message kind passes through
unmodified. -/
theorem applyTransformations_correct (seq : List MidiMessage) (p : Int) (v : ℚ) :
    ((applyTransformations seq p v).length = seq.length)
    ∧ (∀ i : Nat, (applyTransformations seq p v)[i]?
        = Option.map (transformMessage p v) seq[i]?)
    ∧ (∀ m : MidiMessage, (transformMessage p v m).timeStamp = m.timeStamp)
    ∧ (∀ (m : MidiMessage) (ch n : Int) (vel : ℚ),
        m.kind = MsgKind.noteOn ch n vel →
        (transformMessage p v m).kind
          = MsgKind.noteOn ch (max 0 (min 127 (n + p))) (max 0 (min 1 (vel * v))))
    ∧ (∀ (m : MidiMessage) (ch n : Int) (vel : ℚ),
        m.kind = MsgKind.noteOff ch n vel →
        (transformMessage p v m).kind
          = MsgKind.noteOff ch (max 0 (min 127 (n + p))) defaultNoteOffVelocity)
    ∧ (∀ (m : MidiMessage) (tag : Nat),
        m.kind = MsgKind.meta tag → transformMessage p v m = m) := by
  refine ⟨by simp [applyTransformations], ?_, ?_, ?_, ?_, ?_⟩
  · intro i
    simp [applyTransformations]
  · intro m
    rcases m with ⟨k, t⟩
    cases k <;> rfl
  · intro m ch n vel hk
    rcases m with ⟨k, t⟩
    dsimp at hk
    subst hk
    unfold transformMessage
    dsimp only
    rw [jlimit_eq_clamp 0 127 _ (by omega), jlimitQ_eq_clamp 0 1 _ (by norm_num)]
  · intro m ch n vel hk
    rcases m with ⟨k, t⟩
    dsimp at hk
    subst hk
    unfold transformMessage
    dsimp only
    rw [jlimit_eq_clamp 0 127 _ (by omega)]
  · intro m tag hk
    rcases m with ⟨k, t⟩
    dsimp at hk
    subst hk
    rfl

/-- Witness for Claim C5: a note-on at pitch offset 5 and velocity
multiplier 2 (velocity saturates at 1.0). -/
theorem applyTransformations_correct_witness :
    (transformMessage 5 2 ⟨MsgKind.noteOn 1 100 (1/2), 3⟩).kind
      = MsgKind.noteOn 1 105 1 := by
  have h := (applyTransformations_correct [] 5 2).2.2.2.1
      ⟨MsgKind.noteOn 1 100 (1/2), 3⟩ 1 100 (1/2) rfl
  rw [h]
  norm_num [max_def, min_def]

/-- Claim C10: every transformed note-off is rebuilt from scratch with
the clamped note number, original channel and original timestamp, and
carries the constructor-default velocity (0), regardless of the input
note-off's velocity. -/
theorem applyTransformations_noteOff_velocity (seq : List MidiMessage)
    (p : Int) (v : ℚ) :
    defaultNoteOffVelocity = 0
    ∧ ∀ (i : Nat) (m : MidiMessage) (ch n : Int) (vel : ℚ),
        seq[i]? = some m → m.kind = MsgKind.noteOff ch n vel →
        (applyTransformations seq p v)[i]?
          = some { kind := MsgKind.noteOff ch (jlimit 0 127 (n + p))
                     defaultNoteOffVelocity,
                   timeStamp := m.timeStamp } := by
  refine ⟨rfl, ?_⟩
  intro i m ch n vel hi hk
  have hmap : (applyTransformations seq p v)[i]?
      = Option.map (transformMessage p v) seq[i]? := by
    simp [applyTransformations]
  rw [hmap, hi]
  rcases m with ⟨k, t⟩
  dsimp at hk
  subst hk
  rfl

/-- Witness for Claim C10: a note-off with release velocity 3/4 comes
out with velocity 0 and clamped note 127. -/
theorem applyTransformations_noteOff_velocity_witness :
    (applyTransformations [⟨MsgKind.noteOff 2 60 (3/4), 5⟩] 70 2)[0]?
      = some ⟨MsgKind.noteOff 2 127 0, 5⟩ := by
  have h := (applyTransformations_noteOff_velocity
      [⟨MsgKind.noteOff 2 60 (3/4), 5⟩] 70 2).2 0
      ⟨MsgKind.noteOff 2 60 (3/4), 5⟩ 2 60 (3/4) rfl rfl
  rw [h]
  decide

/-- Claim C9: `loadMidiFile` ignores its `bpm` argument — for any file
and any two tempo arguments the returned sequence is the same; the
tick-to-seconds conversion depends only on the file itself. -/
theorem loadMidiFile_bpm_independent (f : MidiFileRaw) (b1 b2 : ℚ) :
    loadMidiFile f b1 = loadMidiFile f b2 := rfl

/-- Claim C6: `rowGain` is 0 for `volumeDb ≤ -96` and
`decibelsToGain(volumeDb)` above; likewise `masterGain`; a combined
gain of zero clears the buffer to exact zero samples, and a non-zero
combined gain multiplies every sample by it.  `dbToLin` abstracts the
JUCE `Decibels::decibelsToGain`, positive above -96 dB. -/
theorem gainStage_correct (dbToLin : ℚ → ℚ)
    (hpos : ∀ x : ℚ, -96 < x → 0 < dbToLin x)
    (volumeDb masterGainDb : ℚ) (buffer : List ℚ) :
    (volumeDb ≤ -96 → rowGainLinear dbToLin volumeDb = 0)
    ∧ (-96 < volumeDb → rowGainLinear dbToLin volumeDb = dbToLin volumeDb)
    ∧ (masterGainDb ≤ -96 → masterGainLinear dbToLin masterGainDb = 0)
    ∧ (-96 < masterGainDb →
        masterGainLinear dbToLin masterGainDb = dbToLin masterGainDb)
    ∧ (rowGainLinear dbToLin volumeDb * masterGainLinear dbToLin masterGainDb = 0 →
        applyGainStage dbToLin volumeDb masterGainDb buffer
          = buffer.map (fun _ => 0))
    ∧ (rowGainLinear dbToLin volumeDb * masterGainLinear dbToLin masterGainDb ≠ 0 →
        applyGainStage dbToLin volumeDb masterGainDb buffer
          = buffer.map (fun s =>
              s * (rowGainLinear dbToLin volumeDb
                * masterGainLinear dbToLin masterGainDb))) := by
  have hrow : 0 ≤ rowGainLinear dbToLin volumeDb := by
    unfold rowGainLinear
    split_ifs with h
    · exact le_of_lt (hpos _ h)
    · exact le_refl 0
  have hmaster : 0 ≤ masterGainLinear dbToLin masterGainDb := by
    unfold masterGainLinear
    split_ifs with h
    · exact le_of_lt (hpos _ h)
    · exact le_refl 0
  refine ⟨?_, ?_, ?_, ?_, ?_, ?_⟩
  · intro h
    unfold rowGainLinear
    rw [if_neg (not_lt.2 h)]
  · intro h
    unfold rowGainLinear
    rw [if_pos h]
  · intro h
    unfold masterGainLinear
    rw [if_neg (not_lt.2 h)]
  · intro h
    unfold masterGainLinear
    rw [if_pos h]
  · intro h0
    unfold applyGainStage
    rw [if_neg (by rw [h0]; exact lt_irrefl 0)]
  · intro hne
    unfold applyGainStage
    rw [if_pos (lt_of_le_of_ne (mul_nonneg hrow hmaster) (Ne.symm hne))]

/-- Witness for Claim C6: a muted row (`volumeDb = -100`) clears the
buffer to exact zeros. -/
theorem gainStage_correct_witness :
    applyGainStage (fun _ => 1) (-100) 0 [3, -2] = [0, 0] := by
  have h := (gainStage_correct (fun _ => 1) (fun _ _ => one_pos)
      (-100) 0 [3, -2]).2.2.2.2.1
      (by norm_num [rowGainLinear, masterGainLinear])
  rw [h]
  rfl

/-- Claim C8 counterexample: a finished batch with one failure recorded
as "boom" fires the error callback with the code's capitalized
"Some renders failed: boom", not the claimed lowercase
"some renders failed: boom". -/
theorem timerCallback_message_counterexample :
    (timerCallback ⟨0, 1, 1, "boom"⟩).2.2
      = PollOutcome.errorCallback ("Some renders failed: boom")
    ∧ (timerCallback ⟨0, 1, 1, "boom"⟩).2.2
      ≠ PollOutcome.errorCallback (claimedErrorMessage "boom") := by
  refine ⟨rfl, ?_⟩
  decide

/-- Claim C8 (amended): each tick reports `completed/total` (1.0 when
total is 0); the poll stops exactly when `completed + failed ≥ total`,
then fires the error callback with `"Some renders failed: "` followed by
only the last recorded failure message (capital S, never a list) when
any job failed, else the completion callback; `onJobCompleted` keeps
only the last non-empty failure message. -/
theorem timerCallback_correct (s : PollState) :
    ((timerCallback s).1
        = if s.totalJobs = 0 then 1 else (s.completed : ℚ) / (s.totalJobs : ℚ))
    ∧ ((timerCallback s).2.1 = true ↔ s.totalJobs ≤ s.completed + s.failed)
    ∧ (s.totalJobs ≤ s.completed + s.failed → 0 < s.failed →
        (timerCallback s).2.2
          = PollOutcome.errorCallback ("Some renders failed: " ++ s.lastError))
    ∧ (s.totalJobs ≤ s.completed + s.failed → s.failed = 0 →
        (timerCallback s).2.2 = PollOutcome.completeCallback)
    ∧ (s.completed + s.failed < s.totalJobs →
        (timerCallback s).2.2 = PollOutcome.keepPolling)
    ∧ (∀ err : String, err.isEmpty = false →
        (recordCompletion s false err).lastError = err)
    ∧ (∀ err : String, (recordCompletion s true err).lastError = s.lastError) := by
  refine ⟨rfl, by simp [timerCallback], ?_, ?_, ?_, ?_, ?_⟩
  · intro hdone hfail
    unfold timerCallback
    rw [if_pos hdone, if_pos hfail]
  · intro hdone hfail
    unfold timerCallback
    rw [if_pos hdone, if_neg (by omega)]
  · intro hrun
    unfold timerCallback
    rw [if_neg (by omega)]
  · intro err herr
    unfold recordCompletion
    simp [herr]
  · intro err
    unfold recordCompletion
    simp

/-- Witness for Claim C8 (amended) at a finished two-job batch with one
failure. -/
theorem timerCallback_correct_witness :
    (timerCallback ⟨1, 1, 2, "boom"⟩).2.2
      = PollOutcome.errorCallback ("Some renders failed: boom") :=
  (timerCallback_correct ⟨1, 1, 2, "boom"⟩).2.2.1 (by norm_num) (by norm_num)

theorem truncQ_le_truncQ (a b : ℚ) (ha : 0 ≤ a) (hab : a ≤ b) :
    truncQ a ≤ truncQ b := by
  rw [truncQ_eq_floor a ha, truncQ_eq_floor b (le_trans ha hab)]
  exact Int.floor_le_floor hab

/-- Claim C3 counterexample: in loop mode *without* seamless, with
bar-rounded loop duration 240 s, sequence duration 2 s and sample rate
10, the rendered buffer has only `(2+10)*10 = 120` samples, so the code
writes `min(2400, 120) = 120` samples — not the claimed
`L × sampleRate = 2400`. -/
theorem loopWriteRange_counterexample :
    (loopWriteRange false 240 10 (renderTotalSamples false 240 2 10)).2 = 120
    ∧ truncQ (240 * 10) = 2400
    ∧ (120 : Int) ≠ 2400 := by
  refine ⟨?_, ?_, by norm_num⟩
  · norm_num [loopWriteRange, renderTotalSamples, renderDurationOf, truncQ,
      min_def]
  · norm_num [truncQ]

/-- Claim C3 (amended): with `loop && seamlessLoop`, every transformed
event is duplicated with its timestamp shifted by the bar-rounded loop
duration `L` and the merged list re-sorted by time; the render covers
`2L + 5` seconds; the written range is offset `(int64)(L*sampleRate)`
and length `(int64)(L*sampleRate)` — the sample range
`[L*sampleRate, 2L*sampleRate)` of the doubled render; in loop mode
without seamless the offset is 0 and the length is
`min((int64)(L*sampleRate), totalSamples)` (clamped, not always
`L*sampleRate`); in both modes the written range stays inside the
rendered buffer. -/
theorem seamlessLoop_correct (loopDur midiDur sampleRate : ℚ)
    (events : List MidiMessage)
    (hL : 0 ≤ loopDur) (hs : 0 < sampleRate) (hm : 0 ≤ midiDur) :
    ((seamlessSpliceEvents events loopDur).Perm
        (events ++ events.map (fun m =>
          ({ kind := m.kind, timeStamp := m.timeStamp + loopDur } : MidiMessage))))
    ∧ (seamlessSpliceEvents events loopDur).Pairwise
        (fun a b => a.timeStamp ≤ b.timeStamp)
    ∧ renderDurationOf true loopDur midiDur = loopDur * 2 + 5
    ∧ (loopWriteRange true loopDur sampleRate
        (renderTotalSamples true loopDur midiDur sampleRate)).1
        = truncQ (loopDur * sampleRate)
    ∧ (loopWriteRange true loopDur sampleRate
        (renderTotalSamples true loopDur midiDur sampleRate)).2
        = truncQ (loopDur * sampleRate)
    ∧ (loopWriteRange true loopDur sampleRate
          (renderTotalSamples true loopDur midiDur sampleRate)).1
        + (loopWriteRange true loopDur sampleRate
            (renderTotalSamples true loopDur midiDur sampleRate)).2
        ≤ renderTotalSamples true loopDur midiDur sampleRate
    ∧ (loopWriteRange false loopDur sampleRate
        (renderTotalSamples false loopDur midiDur sampleRate)).1 = 0
    ∧ (loopWriteRange false loopDur sampleRate
        (renderTotalSamples false loopDur midiDur sampleRate)).2
        = min (truncQ (loopDur * sampleRate))
            (renderTotalSamples false loopDur midiDur sampleRate)
    ∧ (loopWriteRange false loopDur sampleRate
          (renderTotalSamples false loopDur midiDur sampleRate)).1
        + (loopWriteRange false loopDur sampleRate
            (renderTotalSamples false loopDur midiDur sampleRate)).2
        ≤ renderTotalSamples false loopDur midiDur sampleRate := by
  have hx : (0:ℚ) ≤ loopDur * sampleRate := by positivity
  have hdur : loopDur * sampleRate ≤ renderDurationOf true loopDur midiDur * sampleRate := by
    unfold renderDurationOf
    rw [if_pos rfl]
    nlinarith
  have hmin : truncQ (loopDur * sampleRate)
      ≤ renderTotalSamples true loopDur midiDur sampleRate :=
    truncQ_le_truncQ _ _ hx hdur
  refine ⟨?_, ?_, ?_, rfl, ?_, ?_, rfl, rfl, ?_⟩
  · exact List.mergeSort_perm _ timeLe
  · have hp := @List.sorted_mergeSort MidiMessage timeLe
        (fun a b c hab hbc => by
          simp only [timeLe, decide_eq_true_eq] at *
          linarith)
        (fun a b => by
          simp only [timeLe, Bool.or_eq_true, decide_eq_true_eq]
          exact le_total _ _)
        (events ++ events.map (fun m =>
          ({ kind := m.kind, timeStamp := m.timeStamp + loopDur } : MidiMessage)))
    exact hp.imp (fun h => by
      simpa [timeLe, decide_eq_true_eq] using h)
  · unfold renderDurationOf
    rw [if_pos rfl]
  · unfold loopWriteRange
    exact min_eq_left hmin
  · have hrd : (0:ℚ) ≤ renderDurationOf true loopDur midiDur * sampleRate := by
      unfold renderDurationOf
      rw [if_pos rfl]
      positivity
    unfold loopWriteRange
    rw [if_pos rfl, min_eq_left hmin]
    unfold renderTotalSamples
    rw [truncQ_eq_floor _ hx, truncQ_eq_floor _ hrd]
    apply Int.le_floor.mpr
    push_cast
    have h1 : (⌊loopDur * sampleRate⌋ : ℚ) ≤ loopDur * sampleRate :=
      Int.floor_le _
    unfold renderDurationOf
    rw [if_pos rfl]
    nlinarith
  · unfold loopWriteRange
    rw [if_neg (by simp), zero_add]
    exact min_le_right _ _

/-- Witness for Claim C3 (amended) at loop duration 8 s, sequence
duration 7 s, sample rate 10. -/
theorem seamlessLoop_correct_witness :
    (loopWriteRange true 8 10 (renderTotalSamples true 8 7 10)).1 = 80 := by
  have h := (seamlessLoop_correct 8 7 10 [] (by norm_num) (by norm_num)
      (by norm_num)).2.2.2.1
  rw [h]
  norm_num [truncQ]

theorem find?_split {α : Type} (p : α → Bool) :
    ∀ (l : List α) (a : α), l.find? p = some a →
      ∃ l1 l2, l = l1 ++ a :: l2 ∧ (∀ x ∈ l1, p x = false) ∧ p a = true := by
  intro l
  induction l with
  | nil => intro a h; simp at h
  | cons b t ih =>
      intro a h
      by_cases hp : p b = true
      · rw [List.find?_cons_of_pos t hp] at h
        obtain rfl : b = a := by injection h
        exact ⟨[], t, by simp, by simp, hp⟩
      · rw [List.find?_cons_of_neg t hp] at h
        obtain ⟨l1, l2, heq, h1, h2⟩ := ih a h
        refine ⟨b :: l1, l2, by simp [heq], ?_, h2⟩
        intro x hx
        rcases List.mem_cons.1 hx with rfl | hx
        · simpa using hp
        · exact h1 x hx

theorem find?_range_first (p : Nat → Bool) (N k : Nat)
    (h : (List.range N).find? p = some k) :
    p k = true ∧ k < N ∧ ∀ j, j < k → p j = false := by
  obtain ⟨l1, l2, heq, h1, h2⟩ := find?_split p (List.range N) k h
  have hkN : k < N := by
    have hm : k ∈ List.range N := by rw [heq]; simp
    simpa [List.mem_range] using hm
  refine ⟨h2, hkN, ?_⟩
  intro j hj
  have hpair : (l1 ++ k :: l2).Pairwise (· < ·) := by
    rw [← heq]
    exact List.pairwise_lt_range N
  have hmem : j ∈ l1 ++ k :: l2 := by
    rw [← heq]
    simp only [List.mem_range]
    omega
  rcases List.mem_append.1 hmem with hj1 | hj2
  · exact h1 j hj1
  · rcases List.mem_cons.1 hj2 with rfl | hj2
    · omega
    · have hcons := (List.pairwise_append.1 hpair).2.1
      have hk_lt := (List.pairwise_cons.1 hcons).1 j hj2
      omega

theorem scanBackSilence_spec (mag : Nat → ℚ) (total bs : Nat) (thr : ℚ) :
    (scanBackSilence mag total bs thr = total
      ∧ ∀ k, 1 ≤ k → k ≤ total / bs →
          peakRange mag (total - k * bs) bs ≤ thr)
    ∨ (∃ k, 1 ≤ k ∧ k ≤ total / bs
        ∧ thr < peakRange mag (total - k * bs) bs
        ∧ (∀ j, 1 ≤ j → j < k → peakRange mag (total - j * bs) bs ≤ thr)
        ∧ scanBackSilence mag total bs thr = total - k * bs + bs) := by
  rcases hfind : (List.range (total / bs)).find?
      (fun k => decide (thr < peakRange mag (total - (k + 1) * bs) bs)) with _ | k'
  · left
    constructor
    · unfold scanBackSilence
      rw [hfind]
    · intro k hk1 hk2
      have hmem : k - 1 ∈ List.range (total / bs) := by
        simp only [List.mem_range]
        omega
      have hk := List.find?_eq_none.1 hfind (k - 1) hmem
      have h2 : peakRange mag (total - (k - 1 + 1) * bs) bs ≤ thr := by
        simpa using hk
      have hrw : k - 1 + 1 = k := by omega
      rw [hrw] at h2
      exact h2
  · right
    obtain ⟨hp, hlt, hmin⟩ := find?_range_first _ _ _ hfind
    have hp2 : thr < peakRange mag (total - (k' + 1) * bs) bs := by
      simpa using hp
    refine ⟨k' + 1, by omega, by omega, hp2, ?_, ?_⟩
    · intro j hj1 hjk
      have hj := hmin (j - 1) (by omega)
      have h2 : peakRange mag (total - (j - 1 + 1) * bs) bs ≤ thr := by
        simpa using hj
      have hrw : j - 1 + 1 = j := by omega
      rw [hrw] at h2
      exact h2
    · unfold scanBackSilence
      rw [hfind]

theorem nonLoopFinalSamples_eq (mag : Nat → ℚ) (total bs : Nat)
    (thr sR bpm : ℚ) :
    nonLoopFinalSamples mag total bs thr sR bpm
      = min
          (truncQ
            (max ((⌈((scanBackSilence mag total bs thr : ℚ) / sR)
                    / (60 / bpm * 4)⌉ : ℚ) * (60 / bpm * 4))
              (60 / bpm * 4) * sR))
          (total : Int) := by
  unfold nonLoopFinalSamples
  rcases lt_or_le
      ((⌈((scanBackSilence mag total bs thr : ℚ) / sR) / (60 / bpm * 4)⌉ : ℚ)
        * (60 / bpm * 4))
      (60 / bpm * 4) with h | h
  · rw [if_pos h, max_eq_right (le_of_lt h)]
  · rw [if_neg (not_lt.2 h), max_eq_left h]

theorem scanBackSilence_example : scanBackSilence exampleMag 60 7 (1/2) = 53 := by
  have hpk0 : peakRange exampleMag 53 7 = 0 := by
    norm_num [peakRange, exampleMag, max_def,
      show List.range 7 = [0, 1, 2, 3, 4, 5, 6] from by decide]
  have hpk1 : peakRange exampleMag 46 7 = 1 := by
    norm_num [peakRange, exampleMag, max_def,
      show List.range 7 = [0, 1, 2, 3, 4, 5, 6] from by decide]
  unfold scanBackSilence
  rw [show (60:Nat) / 7 = 8 from by norm_num,
    show List.range 8 = [0, 1, 2, 3, 4, 5, 6, 7] from by decide]
  rw [List.find?_cons_of_neg _ (by norm_num [hpk0])]
  rw [List.find?_cons_of_pos _ (by norm_num [hpk1])]

theorem nonLoopFinalSamples_example :
    nonLoopFinalSamples exampleMag 60 7 (1/2) 10 120 = 60 := by
  rw [nonLoopFinalSamples_eq, scanBackSilence_example]
  rw [show (60:ℚ) / 120 * 4 = 2 from by norm_num,
    show ((53:ℕ):ℚ) / 10 / 2 = 53 / 20 from by norm_num]
  rw [show ⌈(53:ℚ) / 20⌉ = 3 from by rw [Int.ceil_eq_iff] <;> constructor <;> norm_num]
  rw [show max (((3:ℤ):ℚ) * 2) 2 = 6 from by norm_num [max_def]]
  rw [show truncQ (6 * 10) = 60 from by norm_num [truncQ]]
  norm_num

/-- Claim C4: in non-loop mode the buffer is scanned backward in
block-sized windows; either no window's peak exceeds the threshold and
`silenceStartSample` stays at the buffer size, or the first window from
the end whose peak exceeds the threshold (all windows nearer the end
silent) sets `silenceStartSample` to that window's end; the final length
is that position in seconds snapped up to
`ceil(time/barDuration) * barDuration` with `barDuration = 60/bpm*4`,
floored at one bar and clamped to the buffer; content ending at
t = 5.3 s at bpm 120 (sample rate 10, window size 7) yields
6.0 s = 60 samples. -/
theorem nonLoopTrim_correct (mag : Nat → ℚ) (total bs : Nat)
    (thr sR bpm : ℚ) :
    ((scanBackSilence mag total bs thr = total
        ∧ ∀ k, 1 ≤ k → k ≤ total / bs →
            peakRange mag (total - k * bs) bs ≤ thr)
      ∨ (∃ k, 1 ≤ k ∧ k ≤ total / bs
          ∧ thr < peakRange mag (total - k * bs) bs
          ∧ (∀ j, 1 ≤ j → j < k → peakRange mag (total - j * bs) bs ≤ thr)
          ∧ scanBackSilence mag total bs thr = total - k * bs + bs))
    ∧ nonLoopFinalSamples mag total bs thr sR bpm
        = min
            (truncQ
              (max ((⌈((scanBackSilence mag total bs thr : ℚ) / sR)
                      / (60 / bpm * 4)⌉ : ℚ) * (60 / bpm * 4))
                (60 / bpm * 4) * sR))
            (total : Int)
    ∧ nonLoopFinalSamples exampleMag 60 7 (1/2) 10 120 = 60 :=
  ⟨scanBackSilence_spec mag total bs thr,
   nonLoopFinalSamples_eq mag total bs thr sR bpm,
   nonLoopFinalSamples_example⟩

/-- Witness for Claim C4 at the concrete 5.3-second example buffer. -/
theorem nonLoopTrim_correct_witness :
    nonLoopFinalSamples exampleMag 60 7 (1/2) 10 120 = 60 :=
  (nonLoopTrim_correct exampleMag 60 7 (1/2) 10 120).2.2

theorem blockEmit_cons_lt {sR startT endT : ℚ} {n : Int} {u : ℚ}
    {rest : List ℚ} (h : u < startT) :
    blockEmit sR startT endT n (u :: rest)
      = (u :: (blockEmit sR startT endT n rest).1,
         (blockEmit sR startT endT n rest).2.1,
         (blockEmit sR startT endT n rest).2.2) := by
  simp only [blockEmit, if_pos h]

theorem blockEmit_cons_mid {sR startT endT : ℚ} {n : Int} {u : ℚ}
    {rest : List ℚ} (h1 : ¬ u < startT) (h2 : u < endT) :
    blockEmit sR startT endT n (u :: rest)
      = ((blockEmit sR startT endT n rest).1,
         (u, jlimit 0 (n - 1) (truncQ ((u - startT) * sR)))
           :: (blockEmit sR startT endT n rest).2.1,
         (blockEmit sR startT endT n rest).2.2) := by
  simp only [blockEmit, if_neg h1, if_pos h2]

theorem blockEmit_cons_ge {sR startT endT : ℚ} {n : Int} {u : ℚ}
    {rest : List ℚ} (h1 : ¬ u < startT) (h2 : ¬ u < endT) :
    blockEmit sR startT endT n (u :: rest) = ([], [], u :: rest) := by
  simp only [blockEmit, if_neg h1, if_neg h2]

theorem blockEmit_dropped_lt (sR startT endT : ℚ) (n : Int) :
    ∀ events : List ℚ, ∀ t ∈ (blockEmit sR startT endT n events).1,
      t < startT := by
  intro events
  induction events with
  | nil => intro t ht; simp [blockEmit] at ht
  | cons u rest ih =>
      intro t ht
      by_cases h1 : u < startT
      · rw [blockEmit_cons_lt h1] at ht
        rcases List.mem_cons.1 ht with rfl | ht
        · exact h1
        · exact ih t ht
      · by_cases h2 : u < endT
        · rw [blockEmit_cons_mid h1 h2] at ht
          exact ih t ht
        · rw [blockEmit_cons_ge h1 h2] at ht
          simp at ht

theorem blockEmit_dropped_nil (sR startT endT : ℚ) (n : Int) :
    ∀ events : List ℚ, (∀ t ∈ events, startT ≤ t) →
      (blockEmit sR startT endT n events).1 = [] := by
  intro events
  induction events with
  | nil => intro _; rfl
  | cons u rest ih =>
      intro h
      have h1 : ¬ u < startT := not_lt.2 (h u (List.mem_cons_self u rest))
      by_cases h2 : u < endT
      · rw [blockEmit_cons_mid h1 h2]
        exact ih (fun t ht => h t (List.mem_cons_of_mem u ht))
      · rw [blockEmit_cons_ge h1 h2]

theorem blockEmit_emitted_form (sR startT endT : ℚ) (n : Int) :
    ∀ events : List ℚ, ∀ p ∈ (blockEmit sR startT endT n events).2.1,
      p.1 ∈ events ∧ startT ≤ p.1 ∧ p.1 < endT
        ∧ p.2 = jlimit 0 (n - 1) (truncQ ((p.1 - startT) * sR)) := by
  intro events
  induction events with
  | nil => intro p hp; simp [blockEmit] at hp
  | cons u rest ih =>
      intro p hp
      by_cases h1 : u < startT
      · rw [blockEmit_cons_lt h1] at hp
        obtain ⟨hm, h⟩ := ih p hp
        exact ⟨List.mem_cons_of_mem u hm, h⟩
      · by_cases h2 : u < endT
        · rw [blockEmit_cons_mid h1 h2] at hp
          rcases List.mem_cons.1 hp with rfl | hp
          · exact ⟨List.mem_cons_self u rest, not_lt.1 h1, h2, rfl⟩
          · obtain ⟨hm, h⟩ := ih p hp
            exact ⟨List.mem_cons_of_mem u hm, h⟩
        · rw [blockEmit_cons_ge h1 h2] at hp
          simp at hp

theorem blockEmit_mem_split (sR startT endT : ℚ) (n : Int) :
    ∀ events : List ℚ, ∀ t ∈ events,
      t ∈ (blockEmit sR startT endT n events).1
      ∨ (∃ off, (t, off) ∈ (blockEmit sR startT endT n events).2.1)
      ∨ t ∈ (blockEmit sR startT endT n events).2.2 := by
  intro events
  induction events with
  | nil => intro t ht; simp at ht
  | cons u rest ih =>
      intro t ht
      by_cases h1 : u < startT
      · rw [blockEmit_cons_lt h1]
        rcases List.mem_cons.1 ht with rfl | ht
        · exact Or.inl (List.mem_cons_self t _)
        · rcases ih t ht with hd | ⟨off, he⟩ | hr
          · exact Or.inl (List.mem_cons_of_mem u hd)
          · exact Or.inr (Or.inl ⟨off, he⟩)
          · exact Or.inr (Or.inr hr)
      · by_cases h2 : u < endT
        · rw [blockEmit_cons_mid h1 h2]
          rcases List.mem_cons.1 ht with rfl | ht
          · exact Or.inr (Or.inl
              ⟨jlimit 0 (n - 1) (truncQ ((t - startT) * sR)),
               List.mem_cons_self _ _⟩)
          · rcases ih t ht with hd | ⟨off, he⟩ | hr
            · exact Or.inl hd
            · exact Or.inr (Or.inl ⟨off, List.mem_cons_of_mem _ he⟩)
            · exact Or.inr (Or.inr hr)
        · rw [blockEmit_cons_ge h1 h2]
          exact Or.inr (Or.inr ht)

theorem blockEmit_emitted_mem (sR startT endT : ℚ) (n : Int) :
    ∀ events : List ℚ, events.Pairwise (· ≤ ·) →
      ∀ t ∈ events, startT ≤ t → t < endT →
        (t, jlimit 0 (n - 1) (truncQ ((t - startT) * sR)))
          ∈ (blockEmit sR startT endT n events).2.1 := by
  intro events
  induction events with
  | nil => intro _ t ht; simp at ht
  | cons u rest ih =>
      intro hp t ht hts hte
      have hu := (List.pairwise_cons.1 hp).1
      have hp' := (List.pairwise_cons.1 hp).2
      rcases List.mem_cons.1 ht with rfl | ht
      · have h1 : ¬ t < startT := not_lt.2 hts
        rw [blockEmit_cons_mid h1 hte]
        exact List.mem_cons_self _ _
      · by_cases h1 : u < startT
        · rw [blockEmit_cons_lt h1]
          exact ih hp' t ht hts hte
        · by_cases h2 : u < endT
          · rw [blockEmit_cons_mid h1 h2]
            exact List.mem_cons_of_mem _ (ih hp' t ht hts hte)
          · exfalso
            have := hu t ht
            have := not_lt.1 h2
            linarith

theorem blockEmit_remaining_ge (sR startT endT : ℚ) (n : Int) :
    ∀ events : List ℚ, events.Pairwise (· ≤ ·) →
      ∀ t ∈ (blockEmit sR startT endT n events).2.2, endT ≤ t := by
  intro events
  induction events with
  | nil => intro _ t ht; simp [blockEmit] at ht
  | cons u rest ih =>
      intro hp t ht
      have hu := (List.pairwise_cons.1 hp).1
      have hp' := (List.pairwise_cons.1 hp).2
      by_cases h1 : u < startT
      · rw [blockEmit_cons_lt h1] at ht
        exact ih hp' t ht
      · by_cases h2 : u < endT
        · rw [blockEmit_cons_mid h1 h2] at ht
          exact ih hp' t ht
        · rw [blockEmit_cons_ge h1 h2] at ht
          rcases List.mem_cons.1 ht with rfl | ht
          · exact not_lt.1 h2
          · exact le_trans (not_lt.1 h2) (hu t ht)

theorem blockEmit_remaining_sublist (sR startT endT : ℚ) (n : Int) :
    ∀ events : List ℚ,
      (blockEmit sR startT endT n events).2.2.Sublist events := by
  intro events
  induction events with
  | nil => simp [blockEmit]
  | cons u rest ih =>
      by_cases h1 : u < startT
      · rw [blockEmit_cons_lt h1]
        exact List.Sublist.cons u ih
      · by_cases h2 : u < endT
        · rw [blockEmit_cons_mid h1 h2]
          exact List.Sublist.cons u ih
        · rw [blockEmit_cons_ge h1 h2]

theorem chainedFrom_renderBlocksAux (bsz total : Nat) :
    ∀ pos, chainedFrom pos (renderBlocksAux bsz total pos) := by
  have key : ∀ fuel pos, total - pos ≤ fuel →
      chainedFrom pos (renderBlocksAux bsz total pos) := by
    intro fuel
    induction fuel with
    | zero =>
        intro pos h
        unfold renderBlocksAux
        rw [dif_neg (by omega)]
        trivial
    | succ k ih =>
        intro pos h
        unfold renderBlocksAux
        by_cases hc : pos < total ∧ 0 < bsz
        · rw [dif_pos hc]
          refine ⟨rfl, ?_⟩
          apply ih
          have hm : 0 < min bsz (total - pos) := lt_min hc.2 (by omega)
          omega
        · rw [dif_neg hc]
          trivial
  exact fun pos => key (total - pos) pos (le_refl _)

theorem chainedFrom_mono :
    ∀ (blocks : List (Nat × Nat)) (start : Nat), chainedFrom start blocks →
      ∀ s n, (s, n) ∈ blocks → start ≤ s := by
  intro blocks
  induction blocks with
  | nil => intro start _ s n hm; simp at hm
  | cons b bs ih =>
      intro start h s n hm
      rcases h with ⟨hb, hrest⟩
      rcases List.mem_cons.1 hm with hb2 | hm2
      · have : b.1 = s := by rw [← hb2]
        omega
      · have := ih (b.1 + b.2) hrest s n hm2
        omega

theorem runBlocks_no_drop (sR : ℚ) :
    ∀ (blocks : List (Nat × Nat)) (start : Nat) (events : List ℚ),
      chainedFrom start blocks →
      events.Pairwise (· ≤ ·) →
      (∀ t ∈ events, ((start : ℚ) / sR) ≤ t) →
      (runBlocks sR blocks events).1 = [] := by
  intro blocks
  induction blocks with
  | nil => intro start events _ _ _; rfl
  | cons b bs ih =>
      intro start events hch hp hge
      rcases hch with ⟨hb1, hch⟩
      subst hb1
      simp only [runBlocks]
      rw [List.append_eq_nil]
      constructor
      · exact blockEmit_dropped_nil _ _ _ _ events hge
      · apply ih (b.1 + b.2)
        · exact hch
        · exact List.Pairwise.sublist
            (blockEmit_remaining_sublist _ _ _ _ events) hp
        · exact fun t ht => blockEmit_remaining_ge _ _ _ _ events hp t ht

theorem runBlocks_emitted_sound (sR : ℚ) :
    ∀ (blocks : List (Nat × Nat)) (events : List ℚ),
      ∀ e ∈ (runBlocks sR blocks events).2.1,
        ∃ n : Nat, (e.1, n) ∈ blocks
          ∧ ((e.1 : ℚ) / sR) ≤ e.2.1
          ∧ e.2.1 < ((e.1 + n : Nat) : ℚ) / sR
          ∧ e.2.2 = jlimit 0 ((n : Int) - 1)
              (truncQ ((e.2.1 - (e.1 : ℚ) / sR) * sR)) := by
  intro blocks
  induction blocks with
  | nil => intro events e he; simp [runBlocks] at he
  | cons b bs ih =>
      intro events e he
      simp only [runBlocks] at he
      rcases List.mem_append.1 he with h1 | h2
      · rcases List.mem_map.1 h1 with ⟨p, hp, rfl⟩
        obtain ⟨hmem, ha, hb, hc⟩ := blockEmit_emitted_form _ _ _ _ events p hp
        exact ⟨b.2, by simp, ha, hb, hc⟩
      · obtain ⟨n, hmem, rest⟩ := ih _ e h2
        exact ⟨n, List.mem_cons_of_mem b hmem, rest⟩

theorem runBlocks_emitted_complete (sR : ℚ) (hs : 0 < sR) :
    ∀ (blocks : List (Nat × Nat)) (start : Nat) (events : List ℚ),
      chainedFrom start blocks →
      events.Pairwise (· ≤ ·) →
      ∀ s n, (s, n) ∈ blocks → ∀ t ∈ events,
        ((s : ℚ) / sR) ≤ t → t < ((s + n : Nat) : ℚ) / sR →
        (s, t, jlimit 0 ((n : Int) - 1) (truncQ ((t - (s : ℚ) / sR) * sR)))
          ∈ (runBlocks sR blocks events).2.1 := by
  intro blocks
  induction blocks with
  | nil => intro start events _ _ s n hm; simp at hm
  | cons b bs ih =>
      intro start events hch hp s n hm t ht hts hte
      rcases hch with ⟨hb1, hch⟩
      simp only [runBlocks]
      apply List.mem_append.2
      rcases List.mem_cons.1 hm with hb2 | hbs
      · left
        have hs1 : b.1 = s := by rw [← hb2]
        have hs2 : b.2 = n := by rw [← hb2]
        subst hs1
        subst hs2
        have hmem := blockEmit_emitted_mem sR ((b.1 : ℚ) / sR)
            (((b.1 + b.2 : Nat) : ℚ) / sR) ((b.2 : Nat) : Int) events hp t ht hts hte
        exact List.mem_map.2 ⟨_, hmem, rfl⟩
      · right
        have hstart_le : b.1 + b.2 ≤ s := chainedFrom_mono bs (b.1 + b.2) hch s n hbs
        have hcast : ((b.1 + b.2 : Nat) : ℚ) ≤ (s : ℚ) := by exact_mod_cast hstart_le
        have hend_le : ((b.1 + b.2 : Nat) : ℚ) / sR ≤ (s : ℚ) / sR := by gcongr
        have hb1cast : ((b.1 : Nat) : ℚ) / sR ≤ ((b.1 + b.2 : Nat) : ℚ) / sR := by
          gcongr
          exact_mod_cast Nat.le_add_right b.1 b.2
        have htrem : t ∈ (blockEmit sR ((b.1 : ℚ) / sR)
            (((b.1 + b.2 : Nat) : ℚ) / sR) (b.2 : Int) events).2.2 := by
          rcases blockEmit_mem_split sR ((b.1 : ℚ) / sR)
              (((b.1 + b.2 : Nat) : ℚ) / sR) (b.2 : Int) events t ht with hd | ⟨off, he⟩ | hr
          · exfalso
            have := blockEmit_dropped_lt sR ((b.1 : ℚ) / sR)
                (((b.1 + b.2 : Nat) : ℚ) / sR) (b.2 : Int) events t hd
            linarith
          · exfalso
            have := (blockEmit_emitted_form sR ((b.1 : ℚ) / sR)
                (((b.1 + b.2 : Nat) : ℚ) / sR) (b.2 : Int) events (t, off) he).2.2.1
            linarith
          · exact hr
        exact ih (b.1 + b.2) _ hch
          (List.Pairwise.sublist (blockEmit_remaining_sublist _ _ _ _ events) hp)
          s n hbs t htrem hts hte

/-- Claim C1 (amended): with time-sorted, nonnegative-timestamp
transformed events, no pending event is ever dropped; every event
emitted into a block's MIDI buffer lies in that block's time window
`[blockStart, blockEnd)` with sample offset
`jlimit(0, blockSamples-1, (int)((t − blockStart) * sampleRate))` —
truncation toward zero, not rounding — so no event is placed by the
claimed catch-up rule; and conversely every pending event falling in a
block's window is emitted in that block at that offset. -/
theorem renderScheduling_correct (sR : ℚ) (total blockSize : Nat)
    (events : List ℚ) (hs : 0 < sR)
    (hsorted : events.Pairwise (· ≤ ·)) (hnn : ∀ t ∈ events, 0 ≤ t) :
    (scheduleEvents sR total blockSize events).1 = []
    ∧ (∀ e ∈ (scheduleEvents sR total blockSize events).2.1,
        ∃ n : Nat, (e.1, n) ∈ renderBlocks blockSize total
          ∧ ((e.1 : ℚ) / sR) ≤ e.2.1
          ∧ e.2.1 < ((e.1 + n : Nat) : ℚ) / sR
          ∧ e.2.2 = jlimit 0 ((n : Int) - 1)
              (truncQ ((e.2.1 - (e.1 : ℚ) / sR) * sR)))
    ∧ (∀ s n, (s, n) ∈ renderBlocks blockSize total → ∀ t ∈ events,
        ((s : ℚ) / sR) ≤ t → t < ((s + n : Nat) : ℚ) / sR →
        (s, t, jlimit 0 ((n : Int) - 1) (truncQ ((t - (s : ℚ) / sR) * sR)))
          ∈ (scheduleEvents sR total blockSize events).2.1) := by
  have hch : chainedFrom 0 (renderBlocks blockSize total) :=
    chainedFrom_renderBlocksAux blockSize total 0
  refine ⟨?_, ?_, ?_⟩
  · apply runBlocks_no_drop sR (renderBlocks blockSize total) 0 events hch hsorted
    intro t ht
    rw [Nat.cast_zero, zero_div]
    exact hnn t ht
  · exact runBlocks_emitted_sound sR (renderBlocks blockSize total) events
  · exact runBlocks_emitted_complete sR hs (renderBlocks blockSize total) 0
      events hch hsorted

/-- Witness for Claim C1 (amended): two sorted events at sample rate 10
across two 4-sample blocks are never dropped. -/
theorem renderScheduling_correct_witness :
    (scheduleEvents 10 8 4 [1/10, 1/2]).1 = [] := by
  refine (renderScheduling_correct 10 8 4 [1/10, 1/2] (by norm_num) ?_ ?_).1
  · refine List.Pairwise.cons ?_ (List.Pairwise.cons ?_ List.Pairwise.nil)
    · intro b hb
      rcases List.mem_cons.1 hb with rfl | hb
      · norm_num
      · simp at hb
    · intro b hb
      simp at hb
  · intro t ht
    rcases List.mem_cons.1 ht with rfl | ht
    · norm_num
    · rcases List.mem_cons.1 ht with rfl | ht
      · norm_num
      · simp at ht

/-- Claim C1 counterexample: sample rate 10, one 2048-sample block, one
pending event at t = 0.15 s: `(0.15 − 0) * 10 = 1.5`; the code emits the
event at sample offset `(int)1.5 = 1`, while the claim's
`clamp(round(1.5), 0, 2047) = 2`. -/
theorem renderScheduling_round_counterexample :
    (scheduleEvents 10 2048 2048 [3/20]).2.1 = [(0, 3/20, 1)]
    ∧ claimedOffset 10 0 2048 (3/20) = 2
    ∧ ((1 : Int) ≠ 2) := by
  have h1 : renderBlocksAux 2048 2048 2048 = [] := by
    unfold renderBlocksAux
    rw [dif_neg (by omega)]
  have h0 : renderBlocks 2048 2048 = [(0, 2048)] := by
    unfold renderBlocks renderBlocksAux
    rw [dif_pos ⟨by norm_num, by norm_num⟩]
    norm_num [h1]
  refine ⟨?_, ?_, by norm_num⟩
  · unfold scheduleEvents
    rw [h0]
    simp only [runBlocks]
    rw [blockEmit_cons_mid (by norm_num) (by norm_num)]
    simp only [blockEmit]
    norm_num [jlimit, truncQ]
  · norm_num [claimedOffset, jlimit, round_eq]

theorem updateRow_forall {P : RowQ → Prop} (i : Nat) (f : RowQ → RowQ) :
    ∀ l : List RowQ, (∀ q ∈ l, P q) → (∀ q ∈ l, q.rowIndex = i → P (f q)) →
      ∀ q' ∈ updateRow i f l, P q' := by
  intro l
  induction l with
  | nil => intro _ _ q' hq'; simp [updateRow] at hq'
  | cons a t ih =>
      intro hold hf q' hq'
      by_cases ha : a.rowIndex = i
      · rw [updateRow, if_pos ha] at hq'
        rcases List.mem_cons.1 hq' with rfl | hq'
        · exact hf a (List.mem_cons_self a t) ha
        · exact hold q' (List.mem_cons_of_mem a hq')
      · rw [updateRow, if_neg ha] at hq'
        rcases List.mem_cons.1 hq' with rfl | hq'
        · exact hold q' (List.mem_cons_self q' t)
        · exact ih (fun q hq => hold q (List.mem_cons_of_mem a hq))
            (fun q hq hqi => hf q (List.mem_cons_of_mem a hq) hqi) q' hq'

theorem updateRow_map_rowIndex (i : Nat) (f : RowQ → RowQ)
    (hf : ∀ q : RowQ, (f q).rowIndex = q.rowIndex) :
    ∀ l : List RowQ,
      (updateRow i f l).map (fun q => q.rowIndex)
        = l.map (fun q => q.rowIndex) := by
  intro l
  induction l with
  | nil => rfl
  | cons a t ih =>
      by_cases ha : a.rowIndex = i
      · rw [updateRow, if_pos ha]
        simp [hf]
      · rw [updateRow, if_neg ha]
        simp [ih]

theorem distinct_of_map_eq {l l' : List RowQ}
    (hmap : l'.map (fun q => q.rowIndex) = l.map (fun q => q.rowIndex))
    (hd : l.Pairwise (fun a b => a.rowIndex ≠ b.rowIndex)) :
    l'.Pairwise (fun a b => a.rowIndex ≠ b.rowIndex) := by
  have h1 := List.pairwise_map.2 hd
  rw [← hmap] at h1
  exact List.pairwise_map.1 h1

theorem updateRow_split (i : Nat) (f : RowQ → RowQ) :
    ∀ l : List RowQ, l.Pairwise (fun a b => a.rowIndex ≠ b.rowIndex) →
      ∀ q ∈ l, q.rowIndex = i →
        ∃ l1 l2, l = l1 ++ q :: l2
          ∧ updateRow i f l = l1 ++ f q :: l2
          ∧ (∀ x ∈ l1, x.rowIndex ≠ i) ∧ (∀ x ∈ l2, x.rowIndex ≠ i) := by
  intro l
  induction l with
  | nil => intro _ q hq; simp at hq
  | cons a t ih =>
      intro hd q hq hqi
      obtain ⟨ha, ht⟩ := List.pairwise_cons.1 hd
      by_cases hai : a.rowIndex = i
      · have hqa : q = a := by
          rcases List.mem_cons.1 hq with rfl | hqt
          · rfl
          · exact absurd (by rw [hai, hqi]) (ha q hqt)
        subst hqa
        refine ⟨[], t, by simp, ?_, by simp, ?_⟩
        · rw [updateRow, if_pos hqi]
          simp
        · intro x hx hxi
          exact ha x hx (by rw [hqi, hxi])
      · have hqt : q ∈ t := by
          rcases List.mem_cons.1 hq with rfl | hqt
          · exact absurd hqi hai
          · exact hqt
        obtain ⟨l1, l2, heq, hupd, h1, h2⟩ := ih ht q hqt hqi
        refine ⟨a :: l1, l2, by simp [heq], ?_, ?_, h2⟩
        · rw [updateRow, if_neg hai, hupd]
          simp
        · intro x hx
          rcases List.mem_cons.1 hx with rfl | hx
          · exact hai
          · exact h1 x hx

theorem pairwise_ne_unique {l : List RowQ}
    (hd : l.Pairwise (fun a b => a.rowIndex ≠ b.rowIndex))
    {q q' : RowQ} (hq : q ∈ l) (hq' : q' ∈ l)
    (hidx : q.rowIndex = q'.rowIndex) : q = q' := by
  induction l with
  | nil => simp at hq
  | cons a t ih =>
      obtain ⟨ha, ht⟩ := List.pairwise_cons.1 hd
      rcases List.mem_cons.1 hq with rfl | hqt
      · rcases List.mem_cons.1 hq' with rfl | hq't
        · rfl
        · exact absurd hidx (ha q' hq't)
      · rcases List.mem_cons.1 hq' with rfl | hq't
        · exact absurd hidx.symm (ha q hqt)
        · exact ih ht hqt hq't

theorem dispatchRow_rowIndex (q : RowQ) :
    (dispatchRow q).rowIndex = q.rowIndex := by
  unfold dispatchRow
  rcases hp : q.pending with _ | ⟨j, rest⟩
  · rfl
  · dsimp only
    by_cases hproc : q.processing
    · rw [if_pos hproc]
    · rw [if_neg hproc]

theorem fullInv_init : FullInv initState := by
  constructor
  · exact List.Pairwise.nil
  · intro q hq
    simp [initState] at hq

theorem addJob_preserves (s : SchedState) (row : Nat) (h : FullInv s) :
    FullInv (addJob s row) := by
  obtain ⟨hdist, hall⟩ := h
  unfold addJob
  by_cases hex : ∃ q ∈ s.rows, q.rowIndex = row
  · rw [dif_pos hex]
    constructor
    · exact distinct_of_map_eq
        (updateRow_map_rowIndex row (fun q =>
          { q with pending := q.pending ++ [s.nextId],
                   enqueued := q.enqueued ++ [s.nextId] })
          (fun q => rfl) s.rows) hdist
    · apply updateRow_forall
      · intro q hq
        exact hall q hq
      · intro q hq _
        obtain ⟨⟨hlen, hse, hsub⟩, haux⟩ := hall q hq
        refine ⟨⟨hlen, hse, ?_⟩, haux⟩
        rw [← List.append_assoc]
        exact List.Sublist.append hsub (List.Sublist.refl _)
  · rw [dif_neg hex]
    constructor
    · rw [List.pairwise_append]
      refine ⟨hdist, by simp, ?_⟩
      intro a hqa b hqb
      rcases List.mem_singleton.1 hqb with rfl
      intro hab
      exact hex ⟨a, hqa, hab⟩
    · intro q hq
      rcases List.mem_append.1 hq with hq1 | hq2
      · exact hall q hq1
      · rcases List.mem_singleton.1 hq2 with rfl
        exact ⟨⟨by simp, by simp, by simp⟩, fun _ _ => rfl⟩

theorem processNext_preserves (s : SchedState) (row : Nat) (h : FullInv s)
    (hrow : ∀ q ∈ s.rows, q.rowIndex = row → q.inFlight = []) :
    FullInv (processNextJobForRow s row) := by
  obtain ⟨hdist, hall⟩ := h
  unfold processNextJobForRow
  by_cases hc : s.cancelled
  · rw [if_pos hc]
    exact ⟨hdist, hall⟩
  · rw [if_neg hc]
    constructor
    · exact distinct_of_map_eq
        (updateRow_map_rowIndex row _ dispatchRow_rowIndex s.rows) hdist
    · apply updateRow_forall
      · intro q hq
        exact hall q hq
      · intro q hq hqi
        have hflight : q.inFlight = [] := hrow q hq hqi
        obtain ⟨⟨hlen, hse, hsub⟩, _⟩ := hall q hq
        unfold dispatchRow
        rcases hp : q.pending with _ | ⟨j, rest⟩
        · refine ⟨⟨hlen, hse, ?_⟩, fun _ _ => hflight⟩
          rw [hp, List.append_nil] at hsub
          simpa using hsub
        · dsimp only
          by_cases hproc : q.processing
          · rw [if_pos hproc]
            exact ⟨⟨hlen, hse, hsub⟩, fun _ hpf => by simp [hproc] at hpf⟩
          · rw [if_neg hproc]
            refine ⟨⟨by simp [hflight], ?_, ?_⟩, fun _ hpf => by simp at hpf⟩
            · dsimp only
              rw [hflight, List.append_nil] at hse
              simp [hse, hflight]
            · dsimp only
              have hx : q.started ++ [j] ++ rest = q.started ++ q.pending := by
                rw [hp]
                simp
              rw [hx]
              exact hsub

theorem foldProcessNext_preserves :
    ∀ (l : List Nat) (s : SchedState), FullInv s → l.Nodup →
      (∀ q ∈ s.rows, q.rowIndex ∈ l → q.inFlight = []) →
      FullInv (l.foldl processNextJobForRow s) := by
  intro l
  induction l with
  | nil => intro s h _ _; exact h
  | cons r l' ih =>
      intro s h hnd hfl
      have hr_notmem : r ∉ l' := (List.nodup_cons.1 hnd).1
      simp only [List.foldl_cons]
      apply ih
      · apply processNext_preserves s r h
        intro q hq hqi
        refine hfl q hq ?_
        rw [hqi]
        exact List.mem_cons_self r l'
      · exact (List.nodup_cons.1 hnd).2
      · unfold processNextJobForRow
        by_cases hc : s.cancelled
        · rw [if_pos hc]
          intro q hq hql
          exact hfl q hq (List.mem_cons_of_mem r hql)
        · rw [if_neg hc]
          apply @updateRow_forall
            (fun q' => q'.rowIndex ∈ l' → q'.inFlight = []) r dispatchRow
          · intro q hq hql
            exact hfl q hq (List.mem_cons_of_mem r hql)
          · intro q _ hqi hql
            exfalso
            rw [dispatchRow_rowIndex, hqi] at hql
            exact hr_notmem hql

theorem startRendering_preserves (s : SchedState) (h : FullInv s)
    (hsafe : ∀ q ∈ s.rows, q.inFlight = []) :
    FullInv (startRendering s) := by
  obtain ⟨hdist, hall⟩ := h
  unfold startRendering
  by_cases hr : s.rendering
  · rw [if_pos hr]
    exact ⟨hdist, hall⟩
  · rw [if_neg hr]
    by_cases he : s.rows.isEmpty
    · rw [if_pos he]
      exact ⟨hdist, hall⟩
    · rw [if_neg he]
      apply foldProcessNext_preserves
      · exact ⟨hdist, fun q hq => ⟨(hall q hq).1, fun _ _ => hsafe q hq⟩⟩
      · exact (List.pairwise_map).2 hdist
      · intro q hq _
        exact hsafe q hq

theorem inFlight_singleton {q : RowQ} (hlen : q.inFlight.length ≤ 1)
    {j : Nat} (hj : j ∈ q.inFlight) : q.inFlight = [j] := by
  rcases hfl : q.inFlight with _ | ⟨a, rest⟩
  · rw [hfl] at hj
    simp at hj
  · rw [hfl] at hlen hj
    rcases rest with _ | ⟨b, rest2⟩
    · rcases List.mem_singleton.1 hj with rfl
      rfl
    · exfalso
      simp [List.length_cons] at hlen

theorem onJobCompleted_preserves (s : SchedState) (row j : Nat)
    (success : Bool) (q : RowQ) (hq : q ∈ s.rows) (hrow : q.rowIndex = row)
    (hj : j ∈ q.inFlight) (h : FullInv s) :
    FullInv (onJobCompleted s row j success) := by
  obtain ⟨hdist, hall⟩ := h
  have hfl : q.inFlight = [j] :=
    inFlight_singleton ((hall q hq).1.1) hj
  obtain ⟨l1, l2, heq, hupd, h1, h2⟩ :=
    updateRow_split row (fun q =>
      { q with processing := false,
               inFlight := q.inFlight.erase j,
               finished := q.finished ++ [j] }) s.rows hdist q hq hrow
  have hinv1 : FullInv { s with
      completedCount := if success then s.completedCount + 1 else s.completedCount,
      failedCount := if success then s.failedCount else s.failedCount + 1,
      rows := updateRow row (fun q =>
        { q with processing := false,
                 inFlight := q.inFlight.erase j,
                 finished := q.finished ++ [j] }) s.rows } := by
    constructor
    · exact distinct_of_map_eq
        (updateRow_map_rowIndex row (fun q =>
          { q with processing := false,
                   inFlight := q.inFlight.erase j,
                   finished := q.finished ++ [j] })
          (fun q => rfl) s.rows) hdist
    · intro q' hq'
      dsimp only at hq'
      rw [hupd] at hq'
      have hmem_old : ∀ x ∈ l1 ++ l2, x ∈ s.rows := by
        intro x hx
        rw [heq]
        rcases List.mem_append.1 hx with hx1 | hx2
        · exact List.mem_append.2 (Or.inl hx1)
        · exact List.mem_append.2 (Or.inr (List.mem_cons_of_mem q hx2))
      rcases List.mem_append.1 hq' with hq1 | hq2
      · exact hall q' (hmem_old q' (List.mem_append.2 (Or.inl hq1)))
      · rcases List.mem_cons.1 hq2 with rfl | hq2
        · obtain ⟨⟨hlen, hse, hsub⟩, _⟩ := hall q hq
          refine ⟨⟨?_, ?_, ?_⟩, fun _ _ => ?_⟩
          · simp [hfl]
          · rw [hfl] at hse
            simp [hfl, hse]
          · exact hsub
          · simp [hfl]
        · exact hall q' (hmem_old q' (List.mem_append.2 (Or.inr hq2)))
  unfold onJobCompleted
  by_cases hc : s.cancelled
  · rw [if_pos hc]
    exact hinv1
  · rw [if_neg hc]
    apply processNext_preserves _ row hinv1
    intro q' hq' hqi'
    dsimp only at hq'
    rw [hupd] at hq'
    rcases List.mem_append.1 hq' with hq1 | hq2
    · exact absurd hqi' (h1 q' hq1)
    · rcases List.mem_cons.1 hq2 with rfl | hq2
      · simp [hfl]
      · exact absurd hqi' (h2 q' hq2)

theorem fullInv_safeReachable : ∀ s : SchedState, SafeReachable s → FullInv s := by
  intro s h
  induction h with
  | refl => exact fullInv_init
  | tail _ hstep ih =>
      cases hstep with
      | add row => exact addJob_preserves _ row ih
      | start hsafe => exact startRendering_preserves _ ih hsafe
      | finish row j success q hq hrow hj =>
          exact onJobCompleted_preserves _ row j success q hq hrow hj ih
      | cancel =>
          obtain ⟨hdist, hall⟩ := ih
          unfold cancelRendering
          constructor
          · exact distinct_of_map_eq (by simp) hdist
          · intro q' hq'
            simp only [List.mem_map] at hq'
            obtain ⟨q, hq, rfl⟩ := hq'
            obtain ⟨⟨hlen, hse, hsub⟩, _⟩ := hall q hq
            refine ⟨⟨hlen, hse, ?_⟩, fun hcf _ => by cases hcf⟩
            simp only [List.append_nil]
            exact List.Sublist.trans (List.sublist_append_left _ _) hsub

/-- Claim C7 (amended): in every state reachable without calling
`startRendering` while a job is in flight (e.g. no restart after a
cancellation before in-flight jobs drain), every row has at most one
job in flight, every started job except the in-flight one is finished
(job N's completion precedes job N+1's start), and jobs start in strict
FIFO order of enqueueing (the started jobs followed by the still-queued
jobs form a subsequence of the enqueue history). -/
theorem scheduler_row_invariant (s : SchedState) (hreach : SafeReachable s) :
    ∀ q ∈ s.rows,
      q.inFlight.length ≤ 1
      ∧ q.started = q.finished ++ q.inFlight
      ∧ (q.started ++ q.pending).Sublist q.enqueued := by
  intro q hq
  exact ((fullInv_safeReachable s hreach).2 q hq).1

/-- Witness for Claim C7 (amended) at the state reached by enqueueing
one job on row 0 and starting the batch. -/
theorem scheduler_row_invariant_witness :
    (⟨0, [], true, [0], [0], [], [0]⟩ : RowQ).inFlight.length ≤ 1 := by
  have hreach : SafeReachable goodStateC7 :=
    Relation.ReflTransGen.head (SafeStep.add initState 0)
      (Relation.ReflTransGen.head
        (SafeStep.start (addJob initState 0) (by decide))
        Relation.ReflTransGen.refl)
  exact (scheduler_row_invariant goodStateC7 hreach
    ⟨0, [], true, [0], [0], [], [0]⟩ (by decide)).1

/-- Claim C7 counterexample: under the unrestricted step relation the
invariant fails — cancel a batch while row 0's job 0 is in flight, add
job 2 and restart: job 2 is dispatched while job 0 is still in flight,
so row 0 has two jobs in flight in a reachable state. -/
theorem scheduler_invariant_counterexample :
    Reachable badStateC7
    ∧ ¬ (∀ q ∈ badStateC7.rows, q.inFlight.length ≤ 1) := by
  constructor
  · exact Relation.ReflTransGen.head (Step.add initState 0)
      (Relation.ReflTransGen.head (Step.add (addJob initState 0) 0)
        (Relation.ReflTransGen.head (Step.start (addJob (addJob initState 0) 0))
          (Relation.ReflTransGen.head
            (Step.cancel (startRendering (addJob (addJob initState 0) 0)))
            (Relation.ReflTransGen.head
              (Step.add (cancelRendering (startRendering
                (addJob (addJob initState 0) 0))) 0)
              (Relation.ReflTransGen.head
                (Step.start (addJob (cancelRendering (startRendering
                  (addJob (addJob initState 0) 0))) 0))
                Relation.ReflTransGen.refl)))))
  · decide

end FPC
